import Mathlib

/-!
Verification development for the DealFlow lead-management pipeline
(`src/dealflow/dealflow.py`).

The Python module keeps three pieces of process-wide state: the lead store
`LEADS` (a dict from int id to `Lead`), the fixed roster `SALES_REPS`, and the
assignment cursor `route_counter`.  Five operations act on that state:
`ingest_lead`, `enrich_lead`, `score_lead`, `route_lead`, and
`report_performance`.

The embedding below is a direct functional translation:
* Python dicts become association lists with Python-dict semantics
  (insertion order preserved; writing an existing key updates it in place;
  writing a fresh key appends).
* The module-level mutable state becomes an explicit `DFState` record that
  operations take and return.
* A raised `KeyError` becomes an `Except` error value: `DFError.notFound` for
  a failed lead lookup (`LEADS[lead_id]`), `DFError.keyError` for the
  `leads_by_rep[name] += 1` lookup inside reporting.
* Python `str.lower()` is modelled per character by `Char.toLower` (the leads
  and roster data in scope are ASCII).
-/

namespace DealFlow

/-! ### Association lists with Python-dict semantics -/

/-- Does the association list contain the key?  (`k in d` in Python). -/
def hasKey {κ α : Type} [DecidableEq κ] : List (κ × α) → κ → Bool
  | [], _ => false
  | p :: rest, k => decide (p.1 = k) || hasKey rest k

/-- `d.get(k)` in Python: first binding of the key, if any. -/
def alGet {κ α : Type} [DecidableEq κ] : List (κ × α) → κ → Option α
  | [], _ => none
  | p :: rest, k => if p.1 = k then some p.2 else alGet rest k

/-- `d[k] = v` in Python: update the key in place if present, else append. -/
def alInsert {κ α : Type} [DecidableEq κ] (m : List (κ × α)) (k : κ) (v : α) :
    List (κ × α) :=
  if hasKey m k then m.map (fun p => if p.1 = k then (k, v) else p)
  else m ++ [(k, v)]

/-- `d.update(e)` in Python: insert every binding of `e` into `m`, in order. -/
def alUpdate {κ α : Type} [DecidableEq κ] (m e : List (κ × α)) : List (κ × α) :=
  e.foldl (fun acc p => alInsert acc p.1 p.2) m

/-- Sum of the values of a `Nat`-valued dict (`sum(d.values())`). -/
def sumVals {κ : Type} (m : List (κ × Nat)) : Nat :=
  (m.map Prod.snd).sum

/-! ### Data model -/

/-- A roster entry (`SALES_REPS` element): static descriptive record. -/
structure Rep where
  id : Nat
  name : String
  specialty : String
  comment : String
  deriving DecidableEq, Repr

/-- The `Lead` entity.  `created_at` is omitted: it is an opaque timestamp
never read by any operation.  `extra` is a string-keyed dict (values modelled
as strings; every value the operations read or write is a string). -/
structure Lead where
  id : Nat
  name : String
  email : String
  source : String
  extra : List (String × String)
  status : String
  score : Option String
  assigned_to : Option Rep
  deriving DecidableEq, Repr

/-- The process-wide mutable state: `LEADS` and `route_counter`.
(`SALES_REPS` is never reassigned, so it stays a constant.) -/
structure DFState where
  leads : List (Nat × Lead)
  route_counter : Nat
  deriving DecidableEq, Repr

/-- The fixed roster, verbatim from the source. -/
def SALES_REPS : List Rep :=
  [ { id := 1, name := "Alice",
      specialty := "Startup founders, corporate execs",
      comment := "Great with high-value and target buyers" },
    { id := 2, name := "Bob",
      specialty := "ML engineers, students, researchers",
      comment := "Technical, connects with influencers and evangelists" },
    { id := 3, name := "Carol",
      specialty := "Investors, VCs, referrals",
      comment := "Understands investor mindset, builds relationships" } ]

/-- Module load time: empty store, cursor 0. -/
def initialState : DFState := { leads := [], route_counter := 0 }

/-- Failure results: a raised `KeyError`, distinguished by where it arose. -/
inductive DFError where
  | notFound (id : Nat)
  | keyError (k : String)
  deriving DecidableEq, Repr

/-! ### The five operations -/

/-- `ingest_lead`: allocate `len(LEADS) + 1`, build a lead with the field
defaults (`status="new"`, `score=None`, `assigned_to=None`), store it.
`extra or {}` sends both `None` and `{}` to `{}`. -/
def ingest_lead (name email source : String)
    (extra : Option (List (String × String))) (s : DFState) : Lead × DFState :=
  let lid := s.leads.length + 1
  let lead : Lead :=
    { id := lid, name := name, email := email, source := source,
      extra := extra.getD [], status := "new", score := none,
      assigned_to := none }
  (lead, { s with leads := alInsert s.leads lid lead })

/-- `name.replace(' ', '').lower()` from `enrich_lead`. -/
def linkedinSlug (name : String) : String :=
  String.mk ((name.toList.filter (fun c => c != ' ')).map Char.toLower)

/-- The fixed-shape enrichment dict built by `enrich_lead`. -/
def enrichmentOf (lead : Lead) : List (String × String) :=
  [ ("company", "Acme Corp"),
    ("linkedin", "https://linkedin.com/in/" ++ linkedinSlug lead.name),
    ("industry", "Technology"),
    ("location", "San Francisco, CA") ]

/-- `enrich_lead`: look the lead up (KeyError if absent), merge the
enrichment dict into `extra`, write the lead back. -/
def enrich_lead (lead_id : Nat) (s : DFState) :
    Except DFError (Lead × DFState) :=
  match alGet s.leads lead_id with
  | none => .error (.notFound lead_id)
  | some lead =>
    let lead' := { lead with extra := alUpdate lead.extra (enrichmentOf lead) }
    .ok (lead', { s with leads := alInsert s.leads lead_id lead' })

/-- `score_lead`: look the lead up (KeyError if absent); `SQL` when
`extra.get("company", "") == "Acme Corp"` and `source == "web_form"`,
else `MQL`; write the lead back. -/
def score_lead (lead_id : Nat) (s : DFState) :
    Except DFError (Lead × DFState) :=
  match alGet s.leads lead_id with
  | none => .error (.notFound lead_id)
  | some lead =>
    let company := (alGet lead.extra "company").getD ""
    let lead' :=
      if company = "Acme Corp" ∧ lead.source = "web_form" then
        { lead with score := some "SQL" }
      else
        { lead with score := some "MQL" }
    .ok (lead', { s with leads := alInsert s.leads lead_id lead' })

/-- The placeholder record for the unreachable out-of-range branch of the
roster indexing in `route_lead`. -/
def defaultRep : Rep := { id := 0, name := "", specialty := "", comment := "" }

/-- `route_lead`: look the lead up — the `LEADS[lead_id]` line runs *before*
the cursor increment, so a failed lookup leaves the cursor untouched — then
pick `SALES_REPS[route_counter % len(SALES_REPS)]`, increment the cursor, set
`assigned_to` and `status`, and write back.  (The console notification is a
fire-and-forget side effect with no bearing on state.)
The `List.getD` default is unreachable: the index is always below the roster
length. -/
def route_lead (lead_id : Nat) (s : DFState) :
    Except DFError (Lead × DFState) :=
  match alGet s.leads lead_id with
  | none => .error (.notFound lead_id)
  | some lead =>
    let rep := SALES_REPS.getD (s.route_counter % SALES_REPS.length) defaultRep
    let lead' := { lead with assigned_to := some rep, status := "assigned" }
    .ok (lead',
      { leads := alInsert s.leads lead_id lead',
        route_counter := s.route_counter + 1 })

/-- Run an update-style operation for its state effect: a raised error
propagates out of the Python function before any global was written, so the
state is unchanged. -/
def runUpdate (r : Except DFError (Lead × DFState)) (s : DFState) : DFState :=
  match r with
  | .ok (_, s') => s'
  | .error _ => s

/-! ### Reporting -/

/-- The `report` dict assembled by `report_performance`. -/
structure Report where
  total_leads : Nat
  leads_by_source : List (String × Nat)
  leads_by_score : List (String × Nat)
  leads_by_rep : List (String × Nat)
  deriving DecidableEq, Repr

/-- The three running dicts of the aggregation loop. -/
structure Agg where
  bySource : List (String × Nat)
  byScore : List (String × Nat)
  byRep : List (String × Nat)
  deriving DecidableEq, Repr

/-- `leads_by_rep[name] += 1`: plain indexed access, so a missing key is a
`KeyError`. -/
def incExisting (m : List (String × Nat)) (k : String) :
    Except DFError (List (String × Nat)) :=
  if hasKey m k then
    .ok (m.map (fun p => if p.1 = k then (p.1, p.2 + 1) else p))
  else .error (.keyError k)

/-- `leads_by_source[s] = leads_by_source.get(s, 0) + 1`. -/
def bySourceStep (m : List (String × Nat)) (src : String) :
    List (String × Nat) :=
  alInsert m src ((alGet m src).getD 0 + 1)

/-- `if lead.score in leads_by_score: leads_by_score[lead.score] += 1`.
(`None` is never a key of the dict, so an unscored lead is skipped.) -/
def byScoreStep (m : List (String × Nat)) (score : Option String) :
    List (String × Nat) :=
  match score with
  | some sc =>
    if hasKey m sc then m.map (fun p => if p.1 = sc then (p.1, p.2 + 1) else p)
    else m
  | none => m

/-- `if lead.assigned_to: leads_by_rep[lead.assigned_to["name"]] += 1`. -/
def byRepStep (m : List (String × Nat)) (assigned : Option Rep) :
    Except DFError (List (String × Nat)) :=
  match assigned with
  | some rep => incExisting m rep.name
  | none => .ok m

/-- One iteration of the `for lead in LEADS.values()` loop: the three dict
updates in order; only the rep update can raise. -/
def aggStep (agg : Agg) (lead : Lead) : Except DFError Agg :=
  match byRepStep agg.byRep lead.assigned_to with
  | .ok byRep => .ok
      { bySource := bySourceStep agg.bySource lead.source,
        byScore := byScoreStep agg.byScore lead.score,
        byRep := byRep }
  | .error e => .error e

/-- The aggregation loop over the stored leads, in insertion order. -/
def aggLeads : List Lead → Agg → Except DFError Agg
  | [], agg => .ok agg
  | l :: ls, agg =>
    match aggStep agg l with
    | .ok agg' => aggLeads ls agg'
    | .error e => .error e

/-- Initial accumulators: empty by-source dict, pre-seeded score buckets,
zero count for every roster name. -/
def aggInit : Agg :=
  { bySource := [],
    byScore := [("MQL", 0), ("SQL", 0)],
    byRep := SALES_REPS.map (fun r => (r.name, 0)) }

/-- `format_report_markdown`: the fixed-structure markdown document. -/
def format_report_markdown (report : Report) : String :=
  let header := "# DealFlow Report\n\n**Total Leads:** "
    ++ toString report.total_leads
    ++ "\n\n## Leads by Source\n| Source | Count |\n|--------|-------|\n"
  let srcRows := report.leads_by_source.foldl
    (fun md p => md ++ "| " ++ p.1 ++ " | " ++ toString p.2 ++ " |\n") header
  let scoreRows := report.leads_by_score.foldl
    (fun md p => md ++ "| " ++ p.1 ++ " | " ++ toString p.2 ++ " |\n")
    (srcRows ++ "\n## Leads by Score\n| Score | Count |\n|-------|-------|\n")
  report.leads_by_rep.foldl
    (fun md p => md ++ "| " ++ p.1 ++ " | " ++ toString p.2 ++ " |\n")
    (scoreRows ++ "\n## Leads by Rep\n| Rep | Count |\n|-----|-------|\n")

/-- `report_performance`, pure value part: scan the store, build the four
aggregates, render the markdown, return both. -/
def report_performance (s : DFState) : Except DFError (String × Report) :=
  match aggLeads (s.leads.map Prod.snd) aggInit with
  | .error e => .error e
  | .ok agg =>
    let report : Report :=
      { total_leads := s.leads.length,
        leads_by_source := agg.bySource,
        leads_by_score := agg.byScore,
        leads_by_rep := agg.byRep }
    .ok (format_report_markdown report, report)

/-- `report_performance` as a state transformer: the Python body contains no
write to `LEADS`, `SALES_REPS` or `route_counter`, so the translated function
returns the input state. -/
def report_performance_op (s : DFState) :
    Except DFError ((String × Report) × DFState) :=
  match report_performance s with
  | .ok r => .ok (r, s)
  | .error e => .error e

/-! ### Reachable states -/

/-- States reachable from module load through the five operations (the
orchestrator `process_lead_and_report` only chains these, and
`report_performance` never writes the state, so they add no transitions). -/
inductive Reachable : DFState → Prop where
  | init : Reachable initialState
  | ingest (n e src : String) (ex : Option (List (String × String)))
      {s : DFState} : Reachable s → Reachable (ingest_lead n e src ex s).2
  | enrich (i : Nat) {s : DFState} : Reachable s →
      Reachable (runUpdate (enrich_lead i s) s)
  | score (i : Nat) {s : DFState} : Reachable s →
      Reachable (runUpdate (score_lead i s) s)
  | route (i : Nat) {s : DFState} : Reachable s →
      Reachable (runUpdate (route_lead i s) s)

/-- A batch of sequential `route_lead` calls, stopping at the first failure. -/
def routeSeq : List Nat → DFState → Except DFError (List Lead × DFState)
  | [], s => .ok ([], s)
  | i :: is, s =>
    match route_lead i s with
    | .error e => .error e
    | .ok (l, s1) =>
      match routeSeq is s1 with
      | .error e => .error e
      | .ok (ls, s2) => .ok (l :: ls, s2)

/-- Per-lead invariant: `assigned_to` and `status = "assigned"` go together,
and any assigned rep is a roster record. -/
def LeadInv (l : Lead) : Prop :=
  (l.assigned_to.isSome = true ↔ l.status = "assigned") ∧
  (∀ rep, l.assigned_to = some rep → rep ∈ SALES_REPS)

/-- Store invariant: every lead satisfies `LeadInv` and every key is at most
the store size (ids are allocated as `size + 1`, updates keep keys). -/
def StoreInv (s : DFState) : Prop :=
  (∀ p ∈ s.leads, LeadInv p.2) ∧ (∀ p ∈ s.leads, p.1 ≤ s.leads.length)

/-- All bindings of a key carry one fixed value. -/
def allKV {κ α : Type} (m : List (κ × α)) (k : κ) (v : α) : Prop :=
  ∀ p ∈ m, p.1 = k → p.2 = v

/-- The keys of the association list are pairwise distinct (always true of a
list translated from a Python dict, and preserved by `alInsert`). -/
def KeysNodup {κ α : Type} (m : List (κ × α)) : Prop :=
  (m.map Prod.fst).Nodup

/-- The spec's wording of the scoring rule, § 4.4 / § 8: a function of the
pair (`extra.company`, `source`); `SQL` exactly when the company is
`"Acme Corp"` and the source is `"web_form"` (a missing company key can
never match). -/
def specScore (company : Option String) (source : String) : String :=
  if company = some "Acme Corp" ∧ source = "web_form" then "SQL" else "MQL"

/-- The spec's wording of the profile-URL derivation, § 4.3: the lead's name
lower-cased, with spaces stripped. -/
def specSlug (name : String) : String :=
  String.mk ((name.toList.map Char.toLower).filter (fun c => c != ' '))

/-- Fallback lead used only to destructure `Except` values in concrete
witness computations. -/
def dummyLead : Lead :=
  { id := 0, name := "", email := "", source := "", extra := [],
    status := "", score := none, assigned_to := none }

/-- Concrete one-lead state used by witnesses: one ingested lead. -/
def wState1 : DFState :=
  (ingest_lead "Jane Doe" "jane@x.com" "web_form" none initialState).2

/-- Concrete result of routing the single lead of `wState1`. -/
def wRouted : Lead × DFState :=
  (route_lead 1 wState1).toOption.getD (dummyLead, wState1)

/-- Concrete result of enriching the single lead of `wState1`. -/
def wEnriched : Lead × DFState :=
  (enrich_lead 1 wState1).toOption.getD (dummyLead, wState1)

/-- Concrete result of seven sequential routing calls on `wState1`. -/
def wSeqRes : List Lead × DFState :=
  (routeSeq [1, 1, 1, 1, 1, 1, 1] wState1).toOption.getD ([], wState1)

/-- A lead assigned to an agent that is not in the roster.  Not reachable
through the five operations; exercises the reporting loop's rep lookup. -/
def strayLead : Lead :=
  { id := 1, name := "X", email := "x@x", source := "web", extra := [],
    status := "assigned", score := none,
    assigned_to := some { id := 9, name := "Dave", specialty := "", comment := "" } }

/-- A store containing only `strayLead`. -/
def strayState : DFState := { leads := [(1, strayLead)], route_counter := 0 }

/-- Concrete result of the reporting operation on the initial state, used by
witnesses. -/
def wReport : (String × Report) × DFState :=
  (report_performance_op initialState).toOption.getD
    (("", { total_leads := 0, leads_by_source := [], leads_by_score := [],
            leads_by_rep := [] }), initialState)

/-- The all-zero report produced on the empty store. -/
def zeroReport : Report :=
  { total_leads := 0,
    leads_by_source := [],
    leads_by_score := [("MQL", 0), ("SQL", 0)],
    leads_by_rep := [("Alice", 0), ("Bob", 0), ("Carol", 0)] }

/-! ## Association-list lemmas -/

theorem hasKey_of_alGet_some {κ α : Type} [DecidableEq κ]
    {m : List (κ × α)} {k : κ} {v : α} (h : alGet m k = some v) :
    hasKey m k = true := by
  induction m with
  | nil => simp [alGet] at h
  | cons p rest ih =>
    by_cases hp : p.1 = k
    · simp [hasKey, hp]
    · rw [alGet, if_neg hp] at h
      simp [hasKey, hp, ih h]

theorem alGet_eq_none_of_not_hasKey {κ α : Type} [DecidableEq κ]
    {m : List (κ × α)} {k : κ} (h : hasKey m k = false) :
    alGet m k = none := by
  induction m with
  | nil => rfl
  | cons p rest ih =>
    rw [hasKey] at h
    simp only [Bool.or_eq_false_iff, decide_eq_false_iff_not] at h
    rw [alGet, if_neg h.1]
    exact ih h.2

theorem alGet_mem {κ α : Type} [DecidableEq κ]
    {m : List (κ × α)} {k : κ} {v : α} (h : alGet m k = some v) :
    (k, v) ∈ m := by
  induction m with
  | nil => simp [alGet] at h
  | cons p rest ih =>
    by_cases hp : p.1 = k
    · rw [alGet, if_pos hp] at h
      have hv : p.2 = v := Option.some.inj h
      have hkv : (k, v) = p := by
        cases p
        simp_all
      rw [hkv]
      exact List.mem_cons_self _ _
    · rw [alGet, if_neg hp] at h
      exact List.mem_cons_of_mem _ (ih h)

theorem mem_alInsert {κ α : Type} [DecidableEq κ]
    {m : List (κ × α)} {k : κ} {v : α} {p : κ × α}
    (h : p ∈ alInsert m k v) : p = (k, v) ∨ p ∈ m := by
  unfold alInsert at h
  by_cases hk : hasKey m k = true
  · rw [if_pos hk] at h
    rcases List.mem_map.mp h with ⟨q, hq, hfq⟩
    by_cases hq1 : q.1 = k
    · rw [if_pos hq1] at hfq
      exact Or.inl hfq.symm
    · rw [if_neg hq1] at hfq
      exact Or.inr (hfq ▸ hq)
  · rw [if_neg hk] at h
    rcases List.mem_append.mp h with h1 | h1
    · exact Or.inr h1
    · exact Or.inl (List.mem_singleton.mp h1)

theorem length_alInsert_of_hasKey {κ α : Type} [DecidableEq κ]
    {m : List (κ × α)} {k : κ} (v : α) (h : hasKey m k = true) :
    (alInsert m k v).length = m.length := by
  unfold alInsert
  rw [if_pos h, List.length_map]

theorem alGet_alInsert_self {κ α : Type} [DecidableEq κ]
    (m : List (κ × α)) (k : κ) (v : α) :
    alGet (alInsert m k v) k = some v := by
  unfold alInsert
  by_cases hk : hasKey m k = true
  · rw [if_pos hk]
    induction m with
    | nil => simp [hasKey] at hk
    | cons p rest ih =>
      by_cases hp : p.1 = k
      · simp [alGet, hp]
      · rw [hasKey] at hk
        simp only [Bool.or_eq_true, decide_eq_true_eq] at hk
        rcases hk with hk | hk
        · exact absurd hk hp
        · simp only [List.map_cons, if_neg hp]
          rw [alGet, if_neg hp]
          exact ih hk
  · rw [if_neg hk]
    induction m with
    | nil => simp [alGet]
    | cons p rest ih =>
      rw [hasKey] at hk
      simp only [Bool.or_eq_true, decide_eq_true_eq, not_or] at hk
      rw [List.cons_append, alGet, if_neg hk.1]
      exact ih (by simpa using hk.2)

theorem alGet_map_replace {κ α : Type} [DecidableEq κ]
    {k k2 : κ} (m : List (κ × α)) (v : α) (h : k ≠ k2) :
    alGet (m.map (fun p => if p.1 = k2 then (k2, v) else p)) k = alGet m k := by
  induction m with
  | nil => rfl
  | cons p rest ih =>
    by_cases hp2 : p.1 = k2
    · have hp : ¬ p.1 = k := by
        rw [hp2]
        exact fun hh => h hh.symm
      simp only [List.map_cons, if_pos hp2]
      rw [alGet, if_neg (fun hh => h hh.symm), alGet, if_neg hp]
      exact ih
    · simp only [List.map_cons, if_neg hp2]
      by_cases hp : p.1 = k
      · rw [alGet, if_pos hp, alGet, if_pos hp]
      · rw [alGet, if_neg hp, alGet, if_neg hp]
        exact ih

theorem alGet_append_single_ne {κ α : Type} [DecidableEq κ]
    {k k2 : κ} (m : List (κ × α)) (v : α) (h : k ≠ k2) :
    alGet (m ++ [(k2, v)]) k = alGet m k := by
  induction m with
  | nil =>
    simp only [List.nil_append, alGet]
    rw [if_neg (Ne.symm h)]
  | cons p rest ih =>
    by_cases hp : p.1 = k
    · rw [List.cons_append, alGet, if_pos hp, alGet, if_pos hp]
    · rw [List.cons_append, alGet, if_neg hp, alGet, if_neg hp]
      exact ih

theorem alGet_alInsert_ne {κ α : Type} [DecidableEq κ]
    {m : List (κ × α)} {k k2 : κ} (v : α) (h : k ≠ k2) :
    alGet (alInsert m k2 v) k = alGet m k := by
  unfold alInsert
  by_cases hk : hasKey m k2 = true
  · rw [if_pos hk]
    exact alGet_map_replace m v h
  · rw [if_neg hk]
    exact alGet_append_single_ne m v h

theorem hasKey_alInsert_self {κ α : Type} [DecidableEq κ]
    (m : List (κ × α)) (k : κ) (v : α) :
    hasKey (alInsert m k v) k = true :=
  hasKey_of_alGet_some (alGet_alInsert_self m k v)

theorem keys_alInsert_of_hasKey {κ α : Type} [DecidableEq κ]
    {m : List (κ × α)} {k : κ} (v : α) (h : hasKey m k = true) :
    (alInsert m k v).map Prod.fst = m.map Prod.fst := by
  unfold alInsert
  rw [if_pos h, List.map_map]
  apply List.map_congr_left
  intro p _
  by_cases hp : p.1 = k
  · simp [hp]
  · simp [hp]

theorem hasKey_iff_mem_keys {κ α : Type} [DecidableEq κ]
    (m : List (κ × α)) (k : κ) :
    hasKey m k = true ↔ k ∈ m.map Prod.fst := by
  induction m with
  | nil => simp [hasKey]
  | cons p rest ih =>
    rw [hasKey]
    simp only [Bool.or_eq_true, decide_eq_true_eq, List.map_cons,
      List.mem_cons, ih]
    constructor
    · rintro (h | h)
      · exact Or.inl h.symm
      · exact Or.inr h
    · rintro (h | h)
      · exact Or.inl h.symm
      · exact Or.inr h

theorem hasKey_alInsert_of {κ α : Type} [DecidableEq κ]
    {m : List (κ × α)} {k k2 : κ} {v : α} (h : hasKey m k = true) :
    hasKey (alInsert m k2 v) k = true := by
  by_cases hk2 : hasKey m k2 = true
  · rw [hasKey_iff_mem_keys, keys_alInsert_of_hasKey v hk2]
    exact (hasKey_iff_mem_keys m k).mp h
  · unfold alInsert
    rw [if_neg hk2, hasKey_iff_mem_keys, List.map_append, List.mem_append]
    exact Or.inl ((hasKey_iff_mem_keys m k).mp h)

theorem allKV_alInsert_self {κ α : Type} [DecidableEq κ]
    (m : List (κ × α)) (k : κ) (v : α) :
    allKV (alInsert m k v) k v := by
  intro p hp hpk
  unfold alInsert at hp
  by_cases hk : hasKey m k = true
  · rw [if_pos hk] at hp
    rcases List.mem_map.mp hp with ⟨q, _, hfq⟩
    by_cases hq1 : q.1 = k
    · rw [if_pos hq1] at hfq
      rw [← hfq]
    · rw [if_neg hq1] at hfq
      exact absurd (hfq ▸ hpk) hq1
  · rw [if_neg hk] at hp
    rcases List.mem_append.mp hp with h1 | h1
    · exact absurd ((hasKey_iff_mem_keys m k).mpr
        (hpk ▸ List.mem_map_of_mem Prod.fst h1)) (by simpa using hk)
    · rw [List.mem_singleton.mp h1]

theorem allKV_alInsert_ne {κ α : Type} [DecidableEq κ]
    {m : List (κ × α)} {k k2 : κ} {v v2 : α} (hne : k ≠ k2)
    (h : allKV m k v) : allKV (alInsert m k2 v2) k v := by
  intro p hp hpk
  rcases mem_alInsert hp with h1 | h1
  · rw [h1] at hpk
    exact absurd hpk.symm hne
  · exact h p h1 hpk

theorem alInsert_eq_self {κ α : Type} [DecidableEq κ]
    {m : List (κ × α)} {k : κ} {v : α} (h1 : hasKey m k = true)
    (h2 : allKV m k v) : alInsert m k v = m := by
  unfold alInsert
  rw [if_pos h1]
  have hcongr : m.map (fun p => if p.1 = k then (k, v) else p) = m.map id := by
    apply List.map_congr_left
    intro p hp
    by_cases hpk : p.1 = k
    · rw [if_pos hpk]
      have := h2 p hp hpk
      cases p
      simp_all
    · rw [if_neg hpk]
      rfl
  rw [hcongr, List.map_id]

theorem map_inc_of_not_hasKey {κ α : Type} [DecidableEq κ]
    {m : List (κ × α)} {k : κ} (f : κ × α → κ × α)
    (h : hasKey m k = false) :
    m.map (fun p => if p.1 = k then f p else p) = m := by
  have hcongr : m.map (fun p => if p.1 = k then f p else p) = m.map id := by
    apply List.map_congr_left
    intro p hp
    rw [if_neg]
    · rfl
    · intro hpk
      have hmem : k ∈ m.map Prod.fst := by
        rw [← hpk]
        exact List.mem_map_of_mem Prod.fst hp
      rw [(hasKey_iff_mem_keys m k).mpr hmem] at h
      exact Bool.noConfusion h
  rw [hcongr, List.map_id]

theorem KeysNodup_alInsert {κ α : Type} [DecidableEq κ]
    {m : List (κ × α)} (k : κ) (v : α) (h : KeysNodup m) :
    KeysNodup (alInsert m k v) := by
  by_cases hk : hasKey m k = true
  · unfold KeysNodup
    rw [keys_alInsert_of_hasKey v hk]
    exact h
  · unfold KeysNodup
    unfold alInsert
    rw [if_neg hk, List.map_append]
    simp only [List.map_cons, List.map_nil]
    apply List.Nodup.append h (List.nodup_singleton k)
    intro a ha hb
    rw [List.mem_singleton] at hb
    subst hb
    exact hk ((hasKey_iff_mem_keys m a).mpr ha)

theorem sumVals_alInsert_inc {κ : Type} [DecidableEq κ]
    {m : List (κ × Nat)} (k : κ) (h : KeysNodup m) :
    sumVals (alInsert m k ((alGet m k).getD 0 + 1)) = sumVals m + 1 := by
  induction m with
  | nil => simp [alInsert, alGet, hasKey, sumVals]
  | cons p rest ih =>
    have hnd : KeysNodup rest := (List.nodup_cons.mp h).2
    by_cases hp : p.1 = k
    · have hk : hasKey (p :: rest) k = true := by simp [hasKey, hp]
      have hrest : hasKey rest k = false := by
        rw [← Bool.not_eq_true, hasKey_iff_mem_keys]
        intro hmem
        exact (List.nodup_cons.mp h).1 (hp ▸ hmem)
      unfold alInsert
      rw [if_pos hk]
      simp only [List.map_cons, if_pos hp]
      rw [map_inc_of_not_hasKey _ hrest]
      rw [alGet, if_pos hp]
      simp [sumVals, Nat.add_assoc, Nat.add_comm, Nat.add_left_comm]
    · have hget : alGet (p :: rest) k = alGet rest k := by
        rw [alGet, if_neg hp]
      have hcons : alInsert (p :: rest) k ((alGet rest k).getD 0 + 1)
          = p :: alInsert rest k ((alGet rest k).getD 0 + 1) := by
        unfold alInsert
        rw [hasKey]
        simp only [decide_eq_false hp, Bool.false_or]
        by_cases hr : hasKey rest k = true
        · rw [if_pos hr, if_pos hr, List.map_cons, if_neg hp]
        · rw [if_neg hr, if_neg hr, List.cons_append]
      rw [hget, hcons]
      simp only [sumVals, List.map_cons, List.sum_cons]
      have := ih hnd
      simp only [sumVals] at this
      rw [this]
      omega

theorem sumVals_map_inc_le {κ : Type} [DecidableEq κ]
    (m : List (κ × Nat)) (k : κ) :
    sumVals (m.map (fun p => if p.1 = k then (p.1, p.2 + 1) else p))
      ≤ sumVals m + m.length := by
  induction m with
  | nil => simp [sumVals]
  | cons p rest ih =>
    simp only [List.map_cons, sumVals, List.sum_cons, List.length_cons]
    by_cases hp : p.1 = k
    · rw [if_pos hp]
      simp only [sumVals] at ih
      omega
    · rw [if_neg hp]
      simp only [sumVals] at ih
      omega

theorem sumVals_map_inc_one_le {κ : Type} [DecidableEq κ]
    {m : List (κ × Nat)} (k : κ) (h : KeysNodup m) :
    sumVals (m.map (fun p => if p.1 = k then (p.1, p.2 + 1) else p))
      ≤ sumVals m + 1 := by
  induction m with
  | nil => simp [sumVals]
  | cons p rest ih =>
    have hnd : KeysNodup rest := (List.nodup_cons.mp h).2
    simp only [List.map_cons, sumVals, List.sum_cons]
    by_cases hp : p.1 = k
    · have hrest : hasKey rest k = false := by
        rw [← Bool.not_eq_true, hasKey_iff_mem_keys]
        intro hmem
        exact (List.nodup_cons.mp h).1 (hp ▸ hmem)
      rw [if_pos hp, map_inc_of_not_hasKey _ hrest]
      simp [sumVals]
      omega
    · rw [if_neg hp]
      have := ih hnd
      simp only [sumVals] at this
      omega

/-! ## Characters: stripping spaces commutes with ASCII lower-casing -/

theorem toLower_eq_space_iff (c : Char) : Char.toLower c = ' ' ↔ c = ' ' := by
  constructor
  · intro h
    unfold Char.toLower at h
    simp only [ge_iff_le] at h
    by_cases hr : 65 ≤ c.toNat ∧ c.toNat ≤ 90
    · rw [if_pos hr] at h
      exfalso
      have hv : (c.toNat + 32).isValidChar := Or.inl (by omega)
      rw [Char.ofNat, dif_pos hv] at h
      have h2 : c.toNat + 32 = 32 := congrArg Char.toNat h
      omega
    · rw [if_neg hr] at h
      exact h
  · intro h
    subst h
    rfl

theorem bne_space_toLower (c : Char) : (Char.toLower c != ' ') = (c != ' ') := by
  by_cases h : c = ' '
  · subst h
    rfl
  · have h2 : Char.toLower c ≠ ' ' := fun hh => h ((toLower_eq_space_iff c).mp hh)
    have e1 : (Char.toLower c != ' ') = true := by simp [h2]
    have e2 : (c != ' ') = true := by simp [h]
    rw [e1, e2]

theorem filter_map_toLower (l : List Char) :
    (l.filter (fun c => c != ' ')).map Char.toLower
      = (l.map Char.toLower).filter (fun c => c != ' ') := by
  induction l with
  | nil => rfl
  | cons c cs ih =>
    simp only [List.filter_cons, List.map_cons, bne_space_toLower]
    by_cases h : (c != ' ') = true
    · simp [h, ih]
    · simp [h, ih]

/-! ## Idempotence of a four-key dict update -/

theorem alUpdate_cons {κ α : Type} [DecidableEq κ]
    (m : List (κ × α)) (k : κ) (v : α) (e : List (κ × α)) :
    alUpdate m ((k, v) :: e) = alUpdate (alInsert m k v) e := rfl

theorem alUpdate_nil {κ α : Type} [DecidableEq κ] (m : List (κ × α)) :
    alUpdate m [] = m := rfl

theorem alUpdate_four_idem {κ α : Type} [DecidableEq κ]
    (m : List (κ × α)) (a b c d : κ) (va vb vc vd : α)
    (hab : a ≠ b) (hac : a ≠ c) (had : a ≠ d)
    (hbc : b ≠ c) (hbd : b ≠ d) (hcd : c ≠ d) :
    alUpdate (alUpdate m [(a, va), (b, vb), (c, vc), (d, vd)])
        [(a, va), (b, vb), (c, vc), (d, vd)]
      = alUpdate m [(a, va), (b, vb), (c, vc), (d, vd)] := by
  simp only [alUpdate_cons, alUpdate_nil]
  set N := alInsert (alInsert (alInsert (alInsert m a va) b vb) c vc) d vd
    with hN
  have hka : hasKey N a = true :=
    hasKey_alInsert_of (hasKey_alInsert_of (hasKey_alInsert_of
      (hasKey_alInsert_self m a va)))
  have hkb : hasKey N b = true :=
    hasKey_alInsert_of (hasKey_alInsert_of
      (hasKey_alInsert_self (alInsert m a va) b vb))
  have hkc : hasKey N c = true :=
    hasKey_alInsert_of
      (hasKey_alInsert_self (alInsert (alInsert m a va) b vb) c vc)
  have hkd : hasKey N d = true :=
    hasKey_alInsert_self (alInsert (alInsert (alInsert m a va) b vb) c vc) d vd
  have hva : allKV N a va :=
    allKV_alInsert_ne had (allKV_alInsert_ne hac (allKV_alInsert_ne hab
      (allKV_alInsert_self m a va)))
  have hvb : allKV N b vb :=
    allKV_alInsert_ne hbd (allKV_alInsert_ne hbc
      (allKV_alInsert_self (alInsert m a va) b vb))
  have hvc : allKV N c vc :=
    allKV_alInsert_ne hcd
      (allKV_alInsert_self (alInsert (alInsert m a va) b vb) c vc)
  have hvd : allKV N d vd :=
    allKV_alInsert_self (alInsert (alInsert (alInsert m a va) b vb) c vc) d vd
  rw [alInsert_eq_self hka hva, alInsert_eq_self hkb hvb,
    alInsert_eq_self hkc hvc, alInsert_eq_self hkd hvd]

/-! ## Program-level lemmas -/

theorem hasKey_false_of_bound {m : List (Nat × Lead)} {n k : Nat}
    (hb : ∀ p ∈ m, p.1 ≤ n) (hk : n < k) : hasKey m k = false := by
  rw [← Bool.not_eq_true, hasKey_iff_mem_keys]
  intro hmem
  rcases List.mem_map.mp hmem with ⟨p, hp, hfst⟩
  have := hb p hp
  omega

theorem route_lead_ok {i : Nat} {s : DFState} {l : Lead} {s1 : DFState}
    (h : route_lead i s = .ok (l, s1)) :
    s1.route_counter = s.route_counter + 1 ∧
    l.assigned_to
      = some (SALES_REPS.getD (s.route_counter % SALES_REPS.length) defaultRep) ∧
    l.status = "assigned" := by
  unfold route_lead at h
  cases hget : alGet s.leads i with
  | none => rw [hget] at h; cases h
  | some lead =>
    rw [hget] at h
    injection h with hp
    injection hp with h1 h2
    subst h1
    subst h2
    exact ⟨rfl, rfl, rfl⟩

/-- **C1** Operating on an absent lead id: `enrich_lead`, `score_lead` and
`route_lead` all fail with the not-found error for that id, and the state —
store and cursor alike — is left unchanged. -/
theorem absent_id_fails_state_unchanged (i : Nat) (s : DFState)
    (h : alGet s.leads i = none) :
    enrich_lead i s = .error (.notFound i) ∧
    score_lead i s = .error (.notFound i) ∧
    route_lead i s = .error (.notFound i) ∧
    runUpdate (enrich_lead i s) s = s ∧
    runUpdate (score_lead i s) s = s ∧
    runUpdate (route_lead i s) s = s := by
  have he : enrich_lead i s = .error (.notFound i) := by
    unfold enrich_lead
    rw [h]
  have hs : score_lead i s = .error (.notFound i) := by
    unfold score_lead
    rw [h]
  have hr : route_lead i s = .error (.notFound i) := by
    unfold route_lead
    rw [h]
  refine ⟨he, hs, hr, ?_, ?_, ?_⟩ <;>
    simp [runUpdate, he, hs, hr]

/-- Witness for C1 at the empty store and id 1. -/
theorem absent_id_fails_state_unchanged_witness :
    alGet initialState.leads 1 = none ∧
    enrich_lead 1 initialState = .error (.notFound 1) ∧
    runUpdate (route_lead 1 initialState) initialState = initialState := by
  have h := absent_id_fails_state_unchanged 1 initialState rfl
  exact ⟨rfl, h.1, h.2.2.2.2.2⟩

/-- **C7** `score_lead` on an existing lead is total and deterministic in the
pair (`extra.company`, `source`): the written score is exactly
`specScore` of that pair (so `SQL` for company `"Acme Corp"` with source
`"web_form"`, `MQL` for every other combination, a missing company key
included), only the `score` field changes, and the lead is never left
unclassified. -/
theorem score_lead_total_deterministic (i : Nat) (s : DFState) (lead : Lead)
    (h : alGet s.leads i = some lead) :
    ∃ l1 s1, score_lead i s = .ok (l1, s1) ∧
      l1.score = some (specScore (alGet lead.extra "company") lead.source) ∧
      l1.id = lead.id ∧ l1.name = lead.name ∧ l1.email = lead.email ∧
      l1.source = lead.source ∧ l1.extra = lead.extra ∧
      l1.status = lead.status ∧ l1.assigned_to = lead.assigned_to ∧
      s1.leads = alInsert s.leads i l1 ∧
      s1.route_counter = s.route_counter ∧
      l1.score ≠ none ∧
      (l1.score = some "SQL" ∨ l1.score = some "MQL") := by
  have hbridge : ((alGet lead.extra "company").getD "" = "Acme Corp"
      ∧ lead.source = "web_form")
      ↔ (alGet lead.extra "company" = some "Acme Corp"
      ∧ lead.source = "web_form") := by
    cases hc : alGet lead.extra "company" with
    | none => simp
    | some v => simp
  by_cases hcond : (alGet lead.extra "company").getD "" = "Acme Corp"
      ∧ lead.source = "web_form"
  · refine ⟨{ lead with score := some "SQL" },
      { s with leads := alInsert s.leads i ({ lead with score := some "SQL" }) },
      ?_, ?_, rfl, rfl, rfl, rfl, rfl, rfl, rfl, rfl, rfl, by simp,
      Or.inl rfl⟩
    · simp only [score_lead, h]
      rw [if_pos hcond]
    · show some "SQL" = some (specScore (alGet lead.extra "company") lead.source)
      unfold specScore
      rw [if_pos (hbridge.mp hcond)]
  · refine ⟨{ lead with score := some "MQL" },
      { s with leads := alInsert s.leads i ({ lead with score := some "MQL" }) },
      ?_, ?_, rfl, rfl, rfl, rfl, rfl, rfl, rfl, rfl, rfl, by simp,
      Or.inr rfl⟩
    · simp only [score_lead, h]
      rw [if_neg hcond]
    · show some "MQL" = some (specScore (alGet lead.extra "company") lead.source)
      unfold specScore
      rw [if_neg (fun hh => hcond (hbridge.mpr hh))]

theorem roster_getD_mem (n : Nat) :
    SALES_REPS.getD (n % SALES_REPS.length) defaultRep ∈ SALES_REPS := by
  have h3 : SALES_REPS.length = 3 := rfl
  rw [h3]
  have hcases : n % 3 = 0 ∨ n % 3 = 1 ∨ n % 3 = 2 := by omega
  rcases hcases with h | h | h <;> rw [h] <;> decide

theorem storeInv_update {s : DFState} {i : Nat} {lead lead2 : Lead}
    (hs : StoreInv s) (hget : alGet s.leads i = some lead)
    (hinv : LeadInv lead2) (c2 : Nat) :
    StoreInv { leads := alInsert s.leads i lead2, route_counter := c2 } := by
  have hk : hasKey s.leads i = true := hasKey_of_alGet_some hget
  constructor
  · intro p hp
    rcases mem_alInsert hp with h1 | h1
    · rw [h1]
      exact hinv
    · exact hs.1 p h1
  · intro p hp
    show p.1 ≤ (alInsert s.leads i lead2).length
    rw [length_alInsert_of_hasKey lead2 hk]
    rcases mem_alInsert hp with h1 | h1
    · rw [h1]
      exact hs.2 (i, lead) (alGet_mem hget)
    · exact hs.2 p h1

/-- The `LeadInv` and key-bound invariant holds in every reachable state. -/
theorem reachable_storeInv {s : DFState} (h : Reachable s) : StoreInv s := by
  induction h with
  | init =>
    exact ⟨fun p hp => absurd hp (List.not_mem_nil p),
           fun p hp => absurd hp (List.not_mem_nil p)⟩
  | ingest n em src ex hr ih =>
    rename_i s0
    have hfresh : hasKey s0.leads (s0.leads.length + 1) = false :=
      hasKey_false_of_bound ih.2 (Nat.lt_succ_self _)
    have happend : (ingest_lead n em src ex s0).2.leads
        = s0.leads ++ [(s0.leads.length + 1,
            (ingest_lead n em src ex s0).1)] := by
      show alInsert s0.leads (s0.leads.length + 1) _ = _
      unfold alInsert
      rw [hfresh]
      simp only [Bool.false_eq_true, if_false]
      rfl
    constructor
    · intro p hp
      rw [happend] at hp
      rcases List.mem_append.mp hp with h1 | h1
      · exact ih.1 p h1
      · rw [List.mem_singleton.mp h1]
        refine ⟨?_, fun rep hrep => Option.noConfusion hrep⟩
        show (none : Option Rep).isSome = true ↔ "new" = "assigned"
        constructor
        · intro hh
          simp at hh
        · intro hh
          exact absurd hh (by decide)
    · intro p hp
      rw [happend] at hp
      have hlen : (ingest_lead n em src ex s0).2.leads.length
          = s0.leads.length + 1 := by
        rw [happend, List.length_append]
        rfl
      rw [hlen]
      rcases List.mem_append.mp hp with h1 | h1
      · exact Nat.le_succ_of_le (ih.2 p h1)
      · rw [List.mem_singleton.mp h1]
  | enrich i hr ih =>
    rename_i s0
    cases hget : alGet s0.leads i with
    | none =>
      simpa [runUpdate, enrich_lead, hget] using ih
    | some lead =>
      have hstep : runUpdate (enrich_lead i s0) s0
          = { leads := alInsert s0.leads i
                ({ lead with extra := alUpdate lead.extra (enrichmentOf lead) }),
              route_counter := s0.route_counter } := by
        simp [runUpdate, enrich_lead, hget]
      rw [hstep]
      refine storeInv_update ih hget ?_ _
      have hlead := ih.1 (i, lead) (alGet_mem hget)
      exact hlead
  | score i hr ih =>
    rename_i s0
    cases hget : alGet s0.leads i with
    | none =>
      simpa [runUpdate, score_lead, hget] using ih
    | some lead =>
      have hlead : LeadInv lead := ih.1 (i, lead) (alGet_mem hget)
      by_cases hcond : (alGet lead.extra "company").getD "" = "Acme Corp"
          ∧ lead.source = "web_form"
      · have hstep : runUpdate (score_lead i s0) s0
            = { leads := alInsert s0.leads i
                  ({ lead with score := some "SQL" }),
                route_counter := s0.route_counter } := by
          simp only [runUpdate, score_lead, hget]
          rw [if_pos hcond]
        rw [hstep]
        refine storeInv_update ih hget ?_ _
        exact hlead
      · have hstep : runUpdate (score_lead i s0) s0
            = { leads := alInsert s0.leads i
                  ({ lead with score := some "MQL" }),
                route_counter := s0.route_counter } := by
          simp only [runUpdate, score_lead, hget]
          rw [if_neg hcond]
        rw [hstep]
        refine storeInv_update ih hget ?_ _
        exact hlead
  | route i hr ih =>
    rename_i s0
    cases hget : alGet s0.leads i with
    | none =>
      simpa [runUpdate, route_lead, hget] using ih
    | some lead =>
      have hstep : runUpdate (route_lead i s0) s0
          = { leads := alInsert s0.leads i
                ({ lead with
                    assigned_to := some (SALES_REPS.getD
                      (s0.route_counter % SALES_REPS.length) defaultRep),
                    status := "assigned" }),
              route_counter := s0.route_counter + 1 } := by
        simp [runUpdate, route_lead, hget]
      rw [hstep]
      refine storeInv_update ih hget ⟨?_, ?_⟩ _
      · constructor
        · intro _
          rfl
        · intro _
          rfl
      · intro rep hrep
        have : SALES_REPS.getD (s0.route_counter % SALES_REPS.length) defaultRep
            = rep := Option.some.inj hrep
        rw [← this]
        exact roster_getD_mem _

theorem enrich_lead_ok {i : Nat} {s : DFState} {lead l : Lead} {s1 : DFState}
    (hget : alGet s.leads i = some lead)
    (h : enrich_lead i s = .ok (l, s1)) :
    l = { lead with extra := alUpdate lead.extra (enrichmentOf lead) } ∧
    s1 = { leads := alInsert s.leads i l,
           route_counter := s.route_counter } := by
  unfold enrich_lead at h
  rw [hget] at h
  injection h with hp
  injection hp with h1 h2
  refine ⟨h1.symm, ?_⟩
  rw [← h2, ← h1]

theorem score_lead_ok {i : Nat} {s : DFState} {lead l : Lead} {s1 : DFState}
    (hget : alGet s.leads i = some lead)
    (h : score_lead i s = .ok (l, s1)) :
    (l = { lead with score := some "SQL" } ∨
     l = { lead with score := some "MQL" }) ∧
    s1 = { leads := alInsert s.leads i l,
           route_counter := s.route_counter } := by
  simp only [score_lead, hget] at h
  split at h
  · injection h with hp
    injection hp with h1 h2
    refine ⟨Or.inl h1.symm, ?_⟩
    rw [← h2, ← h1]
  · injection h with hp
    injection hp with h1 h2
    refine ⟨Or.inr h1.symm, ?_⟩
    rw [← h2, ← h1]

/-- **C6** `ingest_lead` returns a lead with `status = "new"`, no score, no
assignee, and id equal to the store size plus one; it does not touch the
cursor; and from any reachable state (ids are bounded by the store size, and
nothing deletes) that id is not yet present and the sole store change is
appending this one entry. -/
theorem ingest_lead_spec (n em src : String)
    (ex : Option (List (String × String))) (s : DFState) (l : Lead)
    (s1 : DFState) (h : ingest_lead n em src ex s = (l, s1)) :
    l.status = "new" ∧ l.score = none ∧ l.assigned_to = none ∧
    l.id = s.leads.length + 1 ∧
    s1.route_counter = s.route_counter ∧
    (Reachable s →
      hasKey s.leads l.id = false ∧ s1.leads = s.leads ++ [(l.id, l)]) := by
  have h1 : l = (ingest_lead n em src ex s).1 := by rw [h]
  have h2 : s1 = (ingest_lead n em src ex s).2 := by rw [h]
  subst h1
  subst h2
  refine ⟨rfl, rfl, rfl, rfl, rfl, ?_⟩
  intro hreach
  have ih := reachable_storeInv hreach
  have hfresh : hasKey s.leads (s.leads.length + 1) = false :=
    hasKey_false_of_bound ih.2 (Nat.lt_succ_self _)
  refine ⟨hfresh, ?_⟩
  show alInsert s.leads (s.leads.length + 1) _ = _
  unfold alInsert
  rw [hfresh]
  simp only [Bool.false_eq_true, if_false]
  rfl

/-- Witness for C6: ingesting into the empty initial state appends the lead
with id 1 and the field defaults. -/
theorem ingest_lead_spec_witness :
    (ingest_lead "Jane Doe" "jane@x.com" "web_form" none initialState).1.status
      = "new" ∧
    wState1.leads = initialState.leads
      ++ [((ingest_lead "Jane Doe" "jane@x.com" "web_form" none
            initialState).1.id,
          (ingest_lead "Jane Doe" "jane@x.com" "web_form" none
            initialState).1)] := by
  have h := ingest_lead_spec "Jane Doe" "jane@x.com" "web_form" none
    initialState _ _ rfl
  exact ⟨h.1, (h.2.2.2.2.2 Reachable.init).2⟩

/-- **C9** In every state reachable through the five operations, a lead's
`assigned_to` is set exactly when its `status` is `"assigned"`; `route_lead`
sets both in the same successful step, while `enrich_lead` and `score_lead`
change neither field (and `ingest_lead` creates the lead with neither set,
which is part of the reachability induction). -/
theorem assigned_to_iff_assigned :
    (∀ s, Reachable s → ∀ p ∈ s.leads,
      (p.2.assigned_to.isSome = true ↔ p.2.status = "assigned")) ∧
    (∀ i s l s1, route_lead i s = .ok (l, s1) →
      l.status = "assigned" ∧ l.assigned_to.isSome = true) ∧
    (∀ i s lead l s1, alGet s.leads i = some lead →
      enrich_lead i s = .ok (l, s1) →
      l.status = lead.status ∧ l.assigned_to = lead.assigned_to) ∧
    (∀ i s lead l s1, alGet s.leads i = some lead →
      score_lead i s = .ok (l, s1) →
      l.status = lead.status ∧ l.assigned_to = lead.assigned_to) := by
  refine ⟨?_, ?_, ?_, ?_⟩
  · intro s hs p hp
    exact ((reachable_storeInv hs).1 p hp).1
  · intro i s l s1 h
    obtain ⟨_, hassign, hstatus⟩ := route_lead_ok h
    rw [hassign, hstatus]
    exact ⟨rfl, rfl⟩
  · intro i s lead l s1 hget h
    obtain ⟨hl, _⟩ := enrich_lead_ok hget h
    rw [hl]
    exact ⟨rfl, rfl⟩
  · intro i s lead l s1 hget h
    obtain ⟨hl, _⟩ := score_lead_ok hget h
    rcases hl with hl | hl <;> rw [hl] <;> exact ⟨rfl, rfl⟩

/-- Witness for C9: the routed lead of `wRouted` sits in a reachable state
and has `assigned_to` set together with status `"assigned"`. -/
theorem assigned_to_iff_assigned_witness :
    ((1, wRouted.1) : Nat × Lead).2.assigned_to.isSome = true ↔
    ((1, wRouted.1) : Nat × Lead).2.status = "assigned" := by
  have h1 : Reachable wState1 :=
    Reachable.ingest "Jane Doe" "jane@x.com" "web_form" none Reachable.init
  have h2 : Reachable wRouted.2 := Reachable.route 1 h1
  exact assigned_to_iff_assigned.1 wRouted.2 h2 (1, wRouted.1) (by decide)

/-! ## Aggregation lemmas -/

theorem keys_map_inc {κ : Type} [DecidableEq κ]
    (m : List (κ × Nat)) (k : κ) :
    (m.map (fun p => if p.1 = k then (p.1, p.2 + 1) else p)).map Prod.fst
      = m.map Prod.fst := by
  rw [List.map_map]
  apply List.map_congr_left
  intro p _
  by_cases hp : p.1 = k
  · simp [hp]
  · simp [hp]

theorem incExisting_ok_keys {m : List (String × Nat)} {k : String}
    {m2 : List (String × Nat)} (h : incExisting m k = .ok m2) :
    m2.map Prod.fst = m.map Prod.fst := by
  unfold incExisting at h
  split at h
  · injection h with hp
    rw [← hp]
    exact keys_map_inc m k
  · cases h

theorem byRepStep_ok_keys {m : List (String × Nat)} {a : Option Rep}
    {m2 : List (String × Nat)} (h : byRepStep m a = .ok m2) :
    m2.map Prod.fst = m.map Prod.fst := by
  unfold byRepStep at h
  cases a with
  | none =>
    injection h with hp
    rw [hp]
  | some rep => exact incExisting_ok_keys h

theorem byRepStep_ok_of_hasKey {m : List (String × Nat)} {a : Option Rep}
    (h : ∀ rep, a = some rep → hasKey m rep.name = true) :
    ∃ m2, byRepStep m a = .ok m2 := by
  cases a with
  | none => exact ⟨m, rfl⟩
  | some rep =>
    refine ⟨m.map (fun p => if p.1 = rep.name then (p.1, p.2 + 1) else p), ?_⟩
    show incExisting m rep.name = _
    unfold incExisting
    rw [if_pos (h rep rfl)]

theorem aggStep_ok_fields {agg : Agg} {l : Lead} {agg1 : Agg}
    (h : aggStep agg l = .ok agg1) :
    agg1.bySource = bySourceStep agg.bySource l.source ∧
    agg1.byScore = byScoreStep agg.byScore l.score ∧
    agg1.byRep.map Prod.fst = agg.byRep.map Prod.fst := by
  unfold aggStep at h
  cases hb : byRepStep agg.byRep l.assigned_to with
  | error e => rw [hb] at h; cases h
  | ok m2 =>
    rw [hb] at h
    injection h with hp
    rw [← hp]
    exact ⟨rfl, rfl, byRepStep_ok_keys hb⟩

theorem aggStep_ok_of {agg : Agg} {l : Lead}
    (h : ∀ rep, l.assigned_to = some rep →
      hasKey agg.byRep rep.name = true) :
    ∃ agg1, aggStep agg l = .ok agg1 := by
  obtain ⟨m2, hb⟩ := byRepStep_ok_of_hasKey h
  refine ⟨{ bySource := bySourceStep agg.bySource l.source,
            byScore := byScoreStep agg.byScore l.score,
            byRep := m2 }, ?_⟩
  unfold aggStep
  rw [hb]

theorem byScoreStep_keys (m : List (String × Nat)) (sc : Option String) :
    (byScoreStep m sc).map Prod.fst = m.map Prod.fst := by
  cases sc with
  | none => rfl
  | some v =>
    simp only [byScoreStep]
    by_cases hk : hasKey m v = true
    · rw [if_pos hk]
      exact keys_map_inc m v
    · rw [if_neg hk]

theorem byScoreStep_nodup {m : List (String × Nat)} (sc : Option String)
    (h : KeysNodup m) : KeysNodup (byScoreStep m sc) := by
  unfold KeysNodup
  rw [byScoreStep_keys]
  exact h

theorem byScoreStep_sum_le {m : List (String × Nat)} (sc : Option String)
    (h : KeysNodup m) : sumVals (byScoreStep m sc) ≤ sumVals m + 1 := by
  cases sc with
  | none => exact Nat.le_succ _
  | some v =>
    simp only [byScoreStep]
    by_cases hk : hasKey m v = true
    · rw [if_pos hk]
      exact sumVals_map_inc_one_le v h
    · rw [if_neg hk]
      exact Nat.le_succ _

/-- Loop invariant for the report sums: each iteration adds exactly one to
the by-source total, at most one to the by-score total, keeps both key sets
duplicate-free, and preserves the by-rep key set. -/
theorem aggLeads_sums (ls : List Lead) (agg agg2 : Agg)
    (h : aggLeads ls agg = .ok agg2)
    (h1 : KeysNodup agg.bySource) (h2 : KeysNodup agg.byScore) :
    sumVals agg2.bySource = sumVals agg.bySource + ls.length ∧
    sumVals agg2.byScore ≤ sumVals agg.byScore + ls.length := by
  induction ls generalizing agg with
  | nil =>
    unfold aggLeads at h
    injection h with hp
    rw [← hp]
    simp
  | cons l ls2 ih =>
    unfold aggLeads at h
    cases hstep : aggStep agg l with
    | error e => rw [hstep] at h; cases h
    | ok agg1 =>
      rw [hstep] at h
      obtain ⟨hsrc, hscore, _⟩ := aggStep_ok_fields hstep
      have h1b : KeysNodup agg1.bySource := by
        rw [hsrc]
        exact KeysNodup_alInsert _ _ h1
      have h2b : KeysNodup agg1.byScore := by
        rw [hscore]
        exact byScoreStep_nodup _ h2
      obtain ⟨ihs, ihc⟩ := ih agg1 h h1b h2b
      constructor
      · rw [ihs, hsrc]
        show sumVals (bySourceStep agg.bySource l.source) + ls2.length
          = sumVals agg.bySource + (l :: ls2).length
        unfold bySourceStep
        rw [sumVals_alInsert_inc l.source h1]
        simp only [List.length_cons]
        omega
      · have hle : sumVals agg1.byScore ≤ sumVals agg.byScore + 1 := by
          rw [hscore]
          exact byScoreStep_sum_le _ h2
        simp only [List.length_cons]
        omega

/-- If every assigned lead in the list names a key of the by-rep dict, the
whole aggregation loop succeeds. -/
theorem aggLeads_ok (ls : List Lead) (agg : Agg)
    (h : ∀ l ∈ ls, ∀ rep, l.assigned_to = some rep →
      hasKey agg.byRep rep.name = true) :
    ∃ agg2, aggLeads ls agg = .ok agg2 := by
  induction ls generalizing agg with
  | nil => exact ⟨agg, rfl⟩
  | cons l ls2 ih =>
    obtain ⟨agg1, hstep⟩ :=
      aggStep_ok_of (fun rep hrep => h l (List.mem_cons_self l ls2) rep hrep)
    obtain ⟨_, _, hkeys⟩ := aggStep_ok_fields hstep
    have h2 : ∀ l2 ∈ ls2, ∀ rep, l2.assigned_to = some rep →
        hasKey agg1.byRep rep.name = true := by
      intro l2 hl2 rep hrep
      rw [hasKey_iff_mem_keys, hkeys]
      rw [← hasKey_iff_mem_keys]
      exact h l2 (List.mem_cons_of_mem _ hl2) rep hrep
    obtain ⟨agg2, hrest⟩ := ih agg1 h2
    refine ⟨agg2, ?_⟩
    unfold aggLeads
    rw [hstep]
    exact hrest

/-- **C5** Whenever `report_performance` returns a report, the by-source
counts sum to `total_leads`, which is the number of stored leads, and the
by-score counts sum to at most `total_leads`. -/
theorem report_totals_consistent (s : DFState) (md : String) (r : Report)
    (h : report_performance s = .ok (md, r)) :
    sumVals r.leads_by_source = r.total_leads ∧
    r.total_leads = s.leads.length ∧
    sumVals r.leads_by_score ≤ r.total_leads := by
  unfold report_performance at h
  cases hagg : aggLeads (s.leads.map Prod.snd) aggInit with
  | error e => rw [hagg] at h; cases h
  | ok agg =>
    rw [hagg] at h
    injection h with hp
    injection hp with h1 h2
    obtain ⟨hsum, hle⟩ := aggLeads_sums _ _ _ hagg
      (by unfold KeysNodup; decide) (by unfold KeysNodup; decide)
    rw [← h2]
    refine ⟨?_, rfl, ?_⟩
    · show sumVals agg.bySource = s.leads.length
      rw [hsum]
      simp [aggInit, sumVals]
    · show sumVals agg.byScore ≤ s.leads.length
      have hz : sumVals aggInit.byScore = 0 := by decide
      rw [hz] at hle
      simpa using hle
/-- Witness for C5: the totals of the report on the routed one-lead state
`wRouted.2` are consistent (one lead, one `web_form` source, one scored
bucket at most one). -/
theorem report_totals_consistent_witness :
    sumVals wReport.1.2.leads_by_source = wReport.1.2.total_leads ∧
    wReport.1.2.total_leads = initialState.leads.length := by
  have h := report_totals_consistent initialState wReport.1.1 wReport.1.2 rfl
  exact ⟨h.1, h.2.1⟩

/-- **C2, counterexample** A store holding a lead assigned to `"Dave"`, a
name outside the roster, makes `report_performance` raise a `KeyError`
instead of completing: the claim's "for every Store state … the aggregation
completes" fails on the code. -/
theorem report_crash_counterexample :
    report_performance strayState = .error (.keyError "Dave") ∧
    ∀ r, report_performance strayState ≠ .ok r := by
  have h : report_performance strayState = .error (.keyError "Dave") := rfl
  exact ⟨h, fun r hr => Except.noConfusion (h.symm.trans hr)⟩

/-- **C2, amended** `report_performance` completes on every *reachable*
Store state — assignment only ever copies a roster record, so every assigned
name is a pre-seeded key of the by-rep dict — and on the empty Store it
returns all-zero counts.  On an unreachable store holding a lead assigned to
a non-roster name, the `leads_by_rep[name] += 1` lookup raises a `KeyError`
rather than skipping the lead. -/
theorem report_ok_on_reachable :
    (∀ s, Reachable s → ∃ r, report_performance s = .ok r) ∧
    (∃ md, report_performance initialState = .ok (md, zeroReport)) := by
  constructor
  · intro s hs
    have hinv := reachable_storeInv hs
    have hh : ∀ l ∈ s.leads.map Prod.snd, ∀ rep,
        l.assigned_to = some rep → hasKey aggInit.byRep rep.name = true := by
      intro l hl rep hrep
      rcases List.mem_map.mp hl with ⟨p, hp, hpl⟩
      have hmem : rep ∈ SALES_REPS := by
        refine (hinv.1 p hp).2 rep ?_
        rw [hpl]
        exact hrep
      rw [hasKey_iff_mem_keys]
      have h1 : (fun r : Rep => (r.name, 0)) rep
          ∈ SALES_REPS.map (fun r : Rep => (r.name, 0)) :=
        List.mem_map_of_mem _ hmem
      exact List.mem_map_of_mem Prod.fst h1
    obtain ⟨agg2, hagg⟩ := aggLeads_ok _ _ hh
    have hrep2 : report_performance s = .ok
        (format_report_markdown
          { total_leads := s.leads.length,
            leads_by_source := agg2.bySource,
            leads_by_score := agg2.byScore,
            leads_by_rep := agg2.byRep },
         { total_leads := s.leads.length,
           leads_by_source := agg2.bySource,
           leads_by_score := agg2.byScore,
           leads_by_rep := agg2.byRep }) := by
      unfold report_performance
      rw [hagg]
    exact ⟨_, hrep2⟩
  · exact ⟨format_report_markdown zeroReport, rfl⟩

/-- Witness for C2 (amended): the initial state is reachable and reporting
on it succeeds. -/
theorem report_ok_on_reachable_witness :
    (report_performance initialState).isOk = true := by
  obtain ⟨r, hr⟩ := report_ok_on_reachable.1 initialState Reachable.init
  rw [hr]
  rfl

/-- **C10** `report_performance` is a pure read: a successful call returns
the state it was given — store, cursor, and the constant roster untouched —
and an immediately repeated call returns the identical result. -/
theorem report_performance_is_pure (s : DFState) :
    ∀ r s1, report_performance_op s = .ok (r, s1) →
      s1 = s ∧ report_performance_op s1 = report_performance_op s := by
  intro r s1 h
  unfold report_performance_op at h
  cases hrep : report_performance s with
  | error e => rw [hrep] at h; cases h
  | ok r0 =>
    rw [hrep] at h
    injection h with hp
    injection hp with h1 h2
    subst h2
    exact ⟨rfl, rfl⟩

/-- Witness for C10: reporting on the initial state hands back the initial
state and repeats identically. -/
theorem report_performance_is_pure_witness :
    wReport.2 = initialState ∧
    report_performance_op wReport.2 = report_performance_op initialState :=
  report_performance_is_pure initialState wReport.1 wReport.2 rfl

/-- **C8** `enrich_lead` is idempotent and frame-respecting on `extra`: a
second call on the enriched lead reproduces exactly the same lead and state;
every pre-existing key survives; keys outside the fixed set
company/linkedin/industry/location keep their values; keys inside the set
are overwritten with the enrichment values; and the profile URL is the
lead's name lower-cased with spaces stripped (the code strips first and
lower-cases second, which commutes). -/
theorem enrich_idempotent_and_frame (i : Nat) (s : DFState) (lead l1 : Lead)
    (s1 : DFState) (hget : alGet s.leads i = some lead)
    (h : enrich_lead i s = .ok (l1, s1)) :
    enrich_lead i s1 = .ok (l1, s1) ∧
    (∀ k, hasKey lead.extra k = true → hasKey l1.extra k = true) ∧
    (∀ k, ¬ k ∈ (["company", "linkedin", "industry", "location"]
        : List String) → alGet l1.extra k = alGet lead.extra k) ∧
    alGet l1.extra "company" = some "Acme Corp" ∧
    alGet l1.extra "linkedin"
      = some ("https://linkedin.com/in/" ++ specSlug lead.name) := by
  obtain ⟨hl, hs⟩ := enrich_lead_ok hget h
  have hextra : l1.extra = alInsert (alInsert (alInsert (alInsert lead.extra
      "company" "Acme Corp")
      "linkedin" ("https://linkedin.com/in/" ++ linkedinSlug lead.name))
      "industry" "Technology") "location" "San Francisco, CA" := by
    rw [hl]
    simp only [enrichmentOf, alUpdate_cons, alUpdate_nil]
  have hslug : linkedinSlug lead.name = specSlug lead.name := by
    unfold linkedinSlug specSlug
    rw [filter_map_toLower]
  refine ⟨?_, ?_, ?_, ?_, ?_⟩
  · have hget2 : alGet s1.leads i = some l1 := by
      rw [hs]
      exact alGet_alInsert_self s.leads i l1
    have henr : enrichmentOf l1 = enrichmentOf lead := by
      rw [hl]
      rfl
    have hupd : alUpdate l1.extra (enrichmentOf l1) = l1.extra := by
      rw [henr, hl]
      show alUpdate (alUpdate lead.extra (enrichmentOf lead))
          (enrichmentOf lead) = alUpdate lead.extra (enrichmentOf lead)
      simp only [enrichmentOf]
      exact alUpdate_four_idem lead.extra
        "company" "linkedin" "industry" "location" _ _ _ _
        (by decide) (by decide) (by decide) (by decide) (by decide) (by decide)
    have hl1eq : ({ l1 with extra := alUpdate l1.extra (enrichmentOf l1) }
        : Lead) = l1 := by
      rw [hupd]
    have hins : alInsert s1.leads i l1 = s1.leads := by
      rw [hs]
      show alInsert (alInsert s.leads i l1) i l1 = alInsert s.leads i l1
      exact alInsert_eq_self (hasKey_alInsert_self s.leads i l1)
        (allKV_alInsert_self s.leads i l1)
    have hs1eq : ({ leads := alInsert s1.leads i l1, route_counter := s1.route_counter } : DFState) = s1 := by
      rw [hins]
    have hstep : enrich_lead i s1 = .ok
        ({ l1 with extra := alUpdate l1.extra (enrichmentOf l1) },
         { leads := alInsert s1.leads i
             ({ l1 with extra := alUpdate l1.extra (enrichmentOf l1) }),
           route_counter := s1.route_counter }) := by
      unfold enrich_lead
      rw [hget2]
    rw [hstep, hl1eq, hs1eq]
  · intro k hk
    rw [hextra]
    exact hasKey_alInsert_of (hasKey_alInsert_of (hasKey_alInsert_of
      (hasKey_alInsert_of hk)))
  · intro k hk
    simp only [List.mem_cons, List.mem_singleton, not_or] at hk
    rw [hextra, alGet_alInsert_ne _ hk.2.2.2.1, alGet_alInsert_ne _ hk.2.2.1,
      alGet_alInsert_ne _ hk.2.1, alGet_alInsert_ne _ hk.1]
  · rw [hextra,
      alGet_alInsert_ne _ (show "company" ≠ "location" by decide),
      alGet_alInsert_ne _ (show "company" ≠ "industry" by decide),
      alGet_alInsert_ne _ (show "company" ≠ "linkedin" by decide)]
    exact alGet_alInsert_self lead.extra "company" "Acme Corp"
  · rw [hextra,
      alGet_alInsert_ne _ (show "linkedin" ≠ "location" by decide),
      alGet_alInsert_ne _ (show "linkedin" ≠ "industry" by decide),
      alGet_alInsert_self, hslug]

/-- Witness for C8: enriching the already-enriched lead of `wEnriched`
reproduces it exactly, and its profile URL is derived from "Jane Doe". -/
theorem enrich_idempotent_and_frame_witness :
    enrich_lead 1 wEnriched.2 = .ok (wEnriched.1, wEnriched.2) ∧
    alGet wEnriched.1.extra "linkedin"
      = some ("https://linkedin.com/in/" ++ specSlug
          (ingest_lead "Jane Doe" "jane@x.com" "web_form" none
            initialState).1.name) := by
  have h := enrich_idempotent_and_frame 1 wState1
    (ingest_lead "Jane Doe" "jane@x.com" "web_form" none initialState).1
    wEnriched.1 wEnriched.2 rfl rfl
  exact ⟨h.1, h.2.2.2.2⟩

/-- **C3, counterexample** The claim says every `route_lead` call increments
the cursor, also when the lead id is absent.  On the store `{}` with cursor 5,
`route_lead 1` fails with not-found and the cursor stays 5 — it is not 6. -/
theorem route_cursor_claim_counterexample :
    route_lead 1 { leads := [], route_counter := 5 } = .error (.notFound 1) ∧
    (runUpdate (route_lead 1 { leads := [], route_counter := 5 })
        { leads := [], route_counter := 5 }).route_counter = 5 ∧
    ¬ ((runUpdate (route_lead 1 { leads := [], route_counter := 5 })
        { leads := [], route_counter := 5 }).route_counter
      = ({ leads := [], route_counter := 5 } : DFState).route_counter + 1) := by
  refine ⟨rfl, rfl, by decide⟩

/-- **C3, amended** The cursor starts at 0 and is never reset or decremented;
a *successful* `route_lead` call increments it by exactly 1, while a failed
call (absent lead id) raises before the increment line and leaves it
unchanged; no other operation touches it. -/
theorem route_cursor_monotone :
    (∀ i s l s1, route_lead i s = .ok (l, s1) →
      s1.route_counter = s.route_counter + 1) ∧
    (∀ i s e, route_lead i s = .error e →
      runUpdate (route_lead i s) s = s) ∧
    initialState.route_counter = 0 ∧
    (∀ n em src ex s,
      ((ingest_lead n em src ex s).2).route_counter = s.route_counter) ∧
    (∀ i s, (runUpdate (enrich_lead i s) s).route_counter = s.route_counter) ∧
    (∀ i s, (runUpdate (score_lead i s) s).route_counter = s.route_counter) ∧
    (∀ i s, s.route_counter ≤ (runUpdate (route_lead i s) s).route_counter) := by
  refine ⟨?_, ?_, rfl, ?_, ?_, ?_, ?_⟩
  · intro i s l s1 h
    exact (route_lead_ok h).1
  · intro i s e h
    simp [runUpdate, h]
  · intro n em src ex s
    rfl
  · intro i s
    cases hget : alGet s.leads i with
    | none =>
      simp [runUpdate, enrich_lead, hget]
    | some lead =>
      simp [runUpdate, enrich_lead, hget]
  · intro i s
    cases hget : alGet s.leads i with
    | none =>
      simp [runUpdate, score_lead, hget]
    | some lead =>
      simp [runUpdate, score_lead, hget]
  · intro i s
    cases hget : alGet s.leads i with
    | none =>
      simp [runUpdate, route_lead, hget]
    | some lead =>
      simp [runUpdate, route_lead, hget]

/-- Witness for C3 (amended): routing the single lead of `wState1` moves the
cursor from 0 to 1. -/
theorem route_cursor_monotone_witness :
    wRouted.2.route_counter = wState1.route_counter + 1 :=
  route_cursor_monotone.1 1 wState1 wRouted.1 wRouted.2 rfl

/-- **C4** Sequential successful routing is round-robin: starting from cursor
`c0`, the i-th (0-based) call of a batch assigns the roster entry at index
`(c0 + i) mod len(SALES_REPS)`, and the batch advances the cursor by its
length.  (The witness instantiates the claim's concrete example: 3 agents,
7 calls from cursor 0, agent indices `[0,1,2,0,1,2,0]`, final cursor 7.) -/
theorem route_round_robin (ids : List Nat) (s : DFState) (ls : List Lead)
    (s1 : DFState) (h : routeSeq ids s = .ok (ls, s1)) :
    ls.length = ids.length ∧
    s1.route_counter = s.route_counter + ids.length ∧
    ∀ i (hi : i < ls.length),
      (ls.get ⟨i, hi⟩).assigned_to
        = some (SALES_REPS.getD
            ((s.route_counter + i) % SALES_REPS.length) defaultRep) := by
  induction ids generalizing s ls s1 with
  | nil =>
    unfold routeSeq at h
    injection h with hp
    injection hp with h1 h2
    subst h1
    subst h2
    refine ⟨rfl, rfl, ?_⟩
    intro i hi
    exact absurd hi (by simp)
  | cons j js ih =>
    cases hr : route_lead j s with
    | error e =>
      unfold routeSeq at h
      rw [hr] at h
      cases h
    | ok p =>
      obtain ⟨pl, ps⟩ := p
      have hstep : routeSeq (j :: js) s
          = match routeSeq js ps with
            | .error e => .error e
            | .ok (ls2, s2) => .ok (pl :: ls2, s2) := by
        conv_lhs => rw [routeSeq]
        rw [hr]
      rw [hstep] at h
      cases hseq : routeSeq js ps with
      | error e => rw [hseq] at h; cases h
      | ok q =>
        obtain ⟨ql, qs⟩ := q
        rw [hseq] at h
        injection h with hp
        injection hp with h1 h2
        subst h2
        subst h1
        obtain ⟨hcnt, hassign, _⟩ := route_lead_ok hr
        obtain ⟨hlen, hcnt2, hidx⟩ := ih ps ql qs hseq
        refine ⟨by simp [hlen], ?_, ?_⟩
        · rw [hcnt2, hcnt]
          simp only [List.length_cons]
          omega
        · intro i hi
          cases i with
          | zero =>
            simp only [List.get]
            rw [hassign, Nat.add_zero]
          | succ i2 =>
            simp only [List.get]
            have hi2 : i2 < ql.length := by
              simp at hi
              omega
            have hq := hidx i2 hi2
            rw [hq, hcnt]
            have harith : s.route_counter + 1 + i2
                = s.route_counter + (i2 + 1) := by omega
            rw [harith]

/-- Witness for C4: seven route calls on the one-lead state `wState1`
(cursor 0) succeed, assign the agents at roster indices
`[0,1,2,0,1,2,0]` — names Alice, Bob, Carol, Alice, Bob, Carol, Alice — and
leave the cursor at 7. -/
theorem route_round_robin_witness :
    wSeqRes.2.route_counter = wState1.route_counter + 7 ∧
    wSeqRes.1.map (fun l => l.assigned_to.map Rep.name)
      = [some "Alice", some "Bob", some "Carol",
         some "Alice", some "Bob", some "Carol", some "Alice"] := by
  have h := route_round_robin [1, 1, 1, 1, 1, 1, 1] wState1 wSeqRes.1
    wSeqRes.2 rfl
  exact ⟨h.2.1, by decide⟩

/-- Witness for C7: score the enriched lead of `wEnriched` (company is
`"Acme Corp"`, source is `"web_form"`), observing the `SQL` branch. -/
theorem score_lead_total_deterministic_witness :
    (∃ l1 s1, score_lead 1 wEnriched.2 = .ok (l1, s1) ∧
      l1.score = some (specScore (alGet wEnriched.1.extra "company")
        wEnriched.1.source)) ∧
    specScore (alGet wEnriched.1.extra "company") wEnriched.1.source = "SQL" := by
  obtain ⟨l1, s1, hok, hscore, _⟩ :=
    score_lead_total_deterministic 1 wEnriched.2 wEnriched.1 rfl
  exact ⟨⟨l1, s1, hok, hscore⟩, by decide⟩

end DealFlow
